import Mathlib

/-!
Verification of the opponent-state inference engine: a shallow embedding of
`ElixirTracker` (elixir_tracker.py) and `CardCycleTracker` (cycle_tracker.py).
Python floats are modelled as rationals; the Python `set` of discovered cards
is modelled by a duplicate-free list recording membership, and each query that
iterates the set is parametrised by an enumeration `enum` (a permutation of the
discovered cards) standing for the unspecified iteration order of the set.
-/

namespace CROverlay

/-- State of `ElixirTracker`: rate parameters, cap, current elixir, last
update timestamp (None before the first `update_time`), and phase string. -/
structure ElixirTracker where
  single_seconds_per_elixir : ℚ
  double_seconds_per_elixir : ℚ
  triple_seconds_per_elixir : ℚ
  max_elixir : ℚ
  current_elixir : ℚ
  last_update_timestamp : Option ℚ
  phase : String
deriving DecidableEq

/-- `ElixirTracker.__init__`: state fields start at 0.0 / None / "single". -/
def mkElixirTracker (single_spe double_spe triple_spe max_e : ℚ) : ElixirTracker :=
  { single_seconds_per_elixir := single_spe
    double_seconds_per_elixir := double_spe
    triple_seconds_per_elixir := triple_spe
    max_elixir := max_e
    current_elixir := 0
    last_update_timestamp := none
    phase := "single" }

/-- The default-argument construction `ElixirTracker()`. -/
def defaultElixirTracker : ElixirTracker :=
  mkElixirTracker (2.8 : ℚ) (1.4 : ℚ) (0.9 : ℚ) (10 : ℚ)

/-- `ElixirTracker.update_time`: on the first call only record the timestamp;
afterwards accrue `delta_t / seconds_per_elixir` capped at `max_elixir` (no
clamping from below), then record the timestamp. -/
def ElixirTracker.update_time (s : ElixirTracker) (now_seconds : ℚ) : ElixirTracker :=
  match s.last_update_timestamp with
  | none => { s with last_update_timestamp := some now_seconds }
  | some last =>
      let delta_t := now_seconds - last
      let seconds_per_elixir :=
        if s.phase = "single" then s.single_seconds_per_elixir
        else if s.phase = "double" then s.double_seconds_per_elixir
        else if s.phase = "triple" then s.triple_seconds_per_elixir
        else s.single_seconds_per_elixir
      let elixir_gain := delta_t / seconds_per_elixir
      { s with current_elixir := min (s.current_elixir + elixir_gain) s.max_elixir
               last_update_timestamp := some now_seconds }

/-- `ElixirTracker.spend`: subtract the cost, clamping at zero only. -/
def ElixirTracker.spend (s : ElixirTracker) (cost : ℚ) : ElixirTracker :=
  { s with current_elixir := max 0 (s.current_elixir - cost) }

/-- `ElixirTracker.set_single_elixir`. -/
def ElixirTracker.set_single_elixir (s : ElixirTracker) : ElixirTracker :=
  { s with phase := "single" }

/-- `ElixirTracker.set_double_elixir`. -/
def ElixirTracker.set_double_elixir (s : ElixirTracker) : ElixirTracker :=
  { s with phase := "double" }

/-- `ElixirTracker.set_triple_elixir`. -/
def ElixirTracker.set_triple_elixir (s : ElixirTracker) : ElixirTracker :=
  { s with phase := "triple" }

/-- `ElixirTracker.adjust`: clamp `current_elixir + delta` to `[0, max_elixir]`. -/
def ElixirTracker.adjust (s : ElixirTracker) (delta : ℚ) : ElixirTracker :=
  { s with current_elixir := max 0 (min (s.current_elixir + delta) s.max_elixir) }

/-- One call on an `ElixirTracker` (used to quantify over call sequences). -/
inductive ElixirOp where
  | update_time (now_seconds : ℚ)
  | spend (cost : ℚ)
  | adjust (delta : ℚ)
  | set_single_elixir
  | set_double_elixir
  | set_triple_elixir
deriving DecidableEq

/-- Apply one call to the tracker state. -/
def applyElixirOp (s : ElixirTracker) : ElixirOp → ElixirTracker
  | ElixirOp.update_time now_seconds => s.update_time now_seconds
  | ElixirOp.spend cost => s.spend cost
  | ElixirOp.adjust delta => s.adjust delta
  | ElixirOp.set_single_elixir => s.set_single_elixir
  | ElixirOp.set_double_elixir => s.set_double_elixir
  | ElixirOp.set_triple_elixir => s.set_triple_elixir

/-- Run a sequence of calls from a state. -/
def runElixirOps (s : ElixirTracker) (ops : List ElixirOp) : ElixirTracker :=
  ops.foldl applyElixirOp s

/-- The elixir-state invariant stated by the spec. -/
def ElixirInvariant (s : ElixirTracker) : Prop :=
  0 ≤ s.current_elixir ∧ s.current_elixir ≤ s.max_elixir

/-- All three generation-rate parameters are positive. -/
def RatesPos (s : ElixirTracker) : Prop :=
  0 < s.single_seconds_per_elixir ∧ 0 < s.double_seconds_per_elixir ∧
    0 < s.triple_seconds_per_elixir

/-- A call is admissible in a state: `update_time` receives a timestamp not
earlier than the recorded one and `spend` a nonnegative cost. -/
def AdmissibleOp (s : ElixirTracker) : ElixirOp → Prop
  | ElixirOp.update_time now_seconds =>
      match s.last_update_timestamp with
      | none => True
      | some last => last ≤ now_seconds
  | ElixirOp.spend cost => 0 ≤ cost
  | _ => True

/-- Every call of the sequence is admissible in the state it is applied to. -/
def AdmissibleSeq : ElixirTracker → List ElixirOp → Prop
  | _, [] => True
  | s, op :: ops => AdmissibleOp s op ∧ AdmissibleSeq (applyElixirOp s op) ops

/-- Two elixir states agree on every field except possibly `phase`. -/
def ElixirFrameEq (a b : ElixirTracker) : Prop :=
  a.single_seconds_per_elixir = b.single_seconds_per_elixir ∧
  a.double_seconds_per_elixir = b.double_seconds_per_elixir ∧
  a.triple_seconds_per_elixir = b.triple_seconds_per_elixir ∧
  a.max_elixir = b.max_elixir ∧
  a.current_elixir = b.current_elixir ∧
  a.last_update_timestamp = b.last_update_timestamp

/-- A play event recorded by `CardCycleTracker` (`CardPlay` dataclass). -/
structure CardPlay where
  card_name : String
  is_evolved : Bool
  timestamp : ℚ
deriving DecidableEq

/-- State of `CardCycleTracker`: the set of discovered card names (as a
duplicate-free list) and the insertion-ordered play history. -/
structure CardCycleTracker where
  discovered_cards : List String
  play_history : List CardPlay
deriving DecidableEq

/-- `CardCycleTracker.__init__`: empty set, empty history. -/
def CardCycleTracker.init : CardCycleTracker :=
  { discovered_cards := [], play_history := [] }

/-- `CardCycleTracker.record_play`: append to the history unconditionally and
add the name to the discovered set if it is new. -/
def record_play (s : CardCycleTracker) (card_name : String) (is_evolved : Bool)
    (t : ℚ) : CardCycleTracker :=
  let hist := s.play_history ++ [{ card_name := card_name, is_evolved := is_evolved,
                                   timestamp := t }]
  if card_name ∈ s.discovered_cards then
    { s with play_history := hist }
  else
    { discovered_cards := s.discovered_cards ++ [card_name], play_history := hist }

/-- The dictionary `last_play_time` built by scanning the history in insertion
order, overwriting on every occurrence; `none` when the card never occurs. -/
def lastPlayTime (hist : List CardPlay) (card : String) : Option ℚ :=
  hist.foldl (fun acc p => if p.card_name = card then some p.timestamp else acc) none

/-- The sort key `last_play_time.get(card, float("-inf"))`: the last-written
timestamp, with bottom standing for minus infinity when the card is absent. -/
def lastKey (hist : List CardPlay) (card : String) : WithBot ℚ :=
  match lastPlayTime hist card with
  | none => (⊥ : WithBot ℚ)
  | some t => (t : WithBot ℚ)

/-- Python `sorted` on strings (stable; full comparison sort). -/
def sortedStrings (l : List String) : List String :=
  List.insertionSort (fun a b => a ≤ b) l

/-- Python `sorted(·, key=lambda card: last_play_time.get(card, -inf))`:
a stable sort comparing only the last-played keys. -/
def sortByLastPlayed (hist : List CardPlay) (l : List String) : List String :=
  List.insertionSort (fun a b => lastKey hist a ≤ lastKey hist b) l

/-- Python `min(h :: t, key=...)`: first element attaining the minimal key. -/
def minByLastPlayed (hist : List CardPlay) (h : String) (t : List String) : String :=
  t.foldl (fun best c => if lastKey hist c < lastKey hist best then c else best) h

/-- `CardCycleTracker.get_discovered_deck`: the discovered set, sorted. -/
def get_discovered_deck (s : CardCycleTracker) : List String :=
  sortedStrings s.discovered_cards

/-- `CardCycleTracker.get_inferred_hand`, with `enum` the iteration order of
the discovered set. Empty when no plays; all discovered cards sorted when
fewer than 4 are discovered; otherwise the first 4 of the stable sort of the
set (in iteration order) by last-played key. -/
def get_inferred_hand (s : CardCycleTracker) (enum : List String) : List String :=
  if s.play_history = [] then []
  else if s.discovered_cards.length < 4 then sortedStrings enum
  else (sortByLastPlayed s.play_history enum).take 4

/-- `CardCycleTracker.get_inferred_next_card`, with `enum` the iteration order
of the discovered set (shared with the nested `get_inferred_hand` call). -/
def get_inferred_next_card (s : CardCycleTracker) (enum : List String) :
    Option String :=
  if s.play_history = [] then none
  else if s.discovered_cards.length < 5 then none
  else
    let inferred_hand := get_inferred_hand s enum
    let cards_not_in_hand := enum.filter (fun c => decide (c ∉ inferred_hand))
    match cards_not_in_hand with
    | [] => none
    | h :: t => some (minByLastPlayed s.play_history h t)

/-- Tracker states reachable from a fresh instance by `record_play` calls. -/
inductive Reachable : CardCycleTracker → Prop where
  | init : Reachable CardCycleTracker.init
  | step (s : CardCycleTracker) (n : String) (e : Bool) (t : ℚ) :
      Reachable s → Reachable (record_play s n e t)

/-- `enum` is a legitimate iteration order of the discovered set: a
permutation of the discovered cards. -/
def ValidEnum (s : CardCycleTracker) (enum : List String) : Prop :=
  enum.Perm s.discovered_cards

/-- Run a sequence of `record_play` calls, each given as
`(card_name, is_evolved, timestamp)`. -/
def runPlays (s : CardCycleTracker) (calls : List (String × Bool × ℚ)) :
    CardCycleTracker :=
  calls.foldl (fun st c => record_play st c.1 c.2.1 c.2.2) s

/-- Forget the `is_evolved` component of a `record_play` call. -/
def stripEvCall (c : String × Bool × ℚ) : String × ℚ :=
  (c.1, c.2.2)

/-- Forget the `is_evolved` field of a recorded play. -/
def stripEvPlay (p : CardPlay) : String × ℚ :=
  (p.card_name, p.timestamp)

/-- The total ordering key `(last_played_timestamp, card_identifier)` the spec
prescribes: earlier last-played key first, ties broken lexicographically on
the identifier (code-point order on its characters). -/
def pairRel (hist : List CardPlay) (a b : String) : Prop :=
  lastKey hist a < lastKey hist b ∨
    (lastKey hist a = lastKey hist b ∧ a.toList ≤ b.toList)

instance pairRelDecidable (hist : List CardPlay) : DecidableRel (pairRel hist) :=
  fun a b =>
    inferInstanceAs (Decidable (lastKey hist a < lastKey hist b ∨
      (lastKey hist a = lastKey hist b ∧ a.toList ≤ b.toList)))

/-- The hand described by the spec sentence the claim cites: the first 4
discovered cards under the total ordering key
`(last_played_timestamp, card_identifier)` ascending. Stated from the
spec for comparison with `get_inferred_hand`, which sorts by the timestamp
only. -/
def handByPairKey (s : CardCycleTracker) : List String :=
  (List.insertionSort (pairRel s.play_history) s.discovered_cards).take 4

/-- A reachable one-play example state. -/
def exTracker1 : CardCycleTracker :=
  record_play CardCycleTracker.init "Knight" false 1

/-- A reachable example state with 5 distinct cards at distinct timestamps. -/
def exTracker5 : CardCycleTracker :=
  runPlays CardCycleTracker.init
    [("a", false, 0), ("b", false, 1), ("c", false, 2), ("d", false, 3),
     ("e", false, 4)]

/-- A reachable example state where two cards share a last-played timestamp. -/
def exTrackerTie : CardCycleTracker :=
  runPlays CardCycleTracker.init
    [("a", false, 0), ("b", false, 0), ("c", false, 1), ("d", false, 2)]

lemma reachable_invariants (s : CardCycleTracker) (hs : Reachable s) :
    s.discovered_cards.Nodup ∧
    s.discovered_cards ⊆ s.play_history.map (fun p => p.card_name) ∧
    s.discovered_cards.length ≤ s.play_history.length ∧
    (s.discovered_cards = [] ↔ s.play_history = []) := by
  induction hs with
  | init =>
      refine ⟨List.nodup_nil, ?_, ?_, ?_⟩ <;> simp [CardCycleTracker.init]
  | step s n e t hr ih =>
      obtain ⟨h1, h2, h3, h4⟩ := ih
      by_cases hmem : n ∈ s.discovered_cards
      · refine ⟨?_, ?_, ?_, ?_⟩ <;> simp only [record_play, if_pos hmem]
        · exact h1
        · intro c hc
          simp only [List.map_append, List.mem_append]
          exact Or.inl (h2 hc)
        · simp only [List.length_append, List.length_singleton]
          omega
        · constructor
          · intro h0
            exact absurd (h0 ▸ hmem) (List.not_mem_nil n)
          · intro h0
            exact absurd h0 (by simp)
      · refine ⟨?_, ?_, ?_, ?_⟩ <;> simp only [record_play, if_neg hmem]
        · refine List.Nodup.append h1 (List.nodup_singleton n) ?_
          intro a ha ha2
          rw [List.mem_singleton] at ha2
          exact hmem (ha2 ▸ ha)
        · intro c hc
          simp only [List.map_append, List.mem_append]
          rcases List.mem_append.mp hc with hc1 | hc1
          · exact Or.inl (h2 hc1)
          · rw [List.mem_singleton] at hc1
            subst hc1
            exact Or.inr (by simp)
        · simp only [List.length_append, List.length_singleton]
          omega
        · constructor
          · intro h0
            exact absurd h0 (by simp)
          · intro h0
            exact absurd h0 (by simp)

lemma reachable_runPlays (s : CardCycleTracker) (calls : List (String × Bool × ℚ))
    (hs : Reachable s) : Reachable (runPlays s calls) := by
  induction calls generalizing s with
  | nil => exact hs
  | cons c calls ih => exact ih _ (Reachable.step s c.1 c.2.1 c.2.2 hs)

/-- C8: for every reachable tracker state, the discovered set is no larger
than the play history, every discovered identifier occurs as a `card_name` in
the history, and `record_play` never shrinks the discovered set and leaves it
unchanged when the identifier is already present. -/
theorem discovered_cards_invariant (s : CardCycleTracker) (hs : Reachable s)
    (n : String) (e : Bool) (t : ℚ) :
    s.discovered_cards.length ≤ s.play_history.length ∧
    s.discovered_cards ⊆ s.play_history.map (fun p => p.card_name) ∧
    s.discovered_cards ⊆ (record_play s n e t).discovered_cards ∧
    (n ∈ s.discovered_cards →
      (record_play s n e t).discovered_cards = s.discovered_cards) := by
  obtain ⟨h1, h2, h3, h4⟩ := reachable_invariants s hs
  refine ⟨h3, h2, ?_, ?_⟩
  · by_cases hmem : n ∈ s.discovered_cards
    · simp [record_play, hmem]
    · simp only [record_play, if_neg hmem]
      exact List.subset_append_left _ _
  · intro hmem
    simp [record_play, hmem]

/-- Witness for C8 at the reachable one-play state, recording a repeat play. -/
theorem discovered_cards_invariant_witness :
    (record_play CardCycleTracker.init "Knight" false 1).discovered_cards.length
      ≤ (record_play CardCycleTracker.init "Knight" false 1).play_history.length ∧
    (record_play CardCycleTracker.init "Knight" false 1).discovered_cards
      ⊆ (record_play CardCycleTracker.init "Knight" false 1).play_history.map
          (fun p => p.card_name) ∧
    (record_play CardCycleTracker.init "Knight" false 1).discovered_cards
      ⊆ (record_play (record_play CardCycleTracker.init "Knight" false 1)
          "Knight" true 2).discovered_cards ∧
    ("Knight" ∈ (record_play CardCycleTracker.init "Knight" false 1).discovered_cards →
      (record_play (record_play CardCycleTracker.init "Knight" false 1)
          "Knight" true 2).discovered_cards
        = (record_play CardCycleTracker.init "Knight" false 1).discovered_cards) :=
  discovered_cards_invariant (record_play CardCycleTracker.init "Knight" false 1)
    (Reachable.step CardCycleTracker.init "Knight" false 1 Reachable.init)
    "Knight" true 2

lemma lastPlayTime_append (hist : List CardPlay) (p : CardPlay) (c : String) :
    lastPlayTime (hist ++ [p]) c
      = if p.card_name = c then some p.timestamp else lastPlayTime hist c := by
  simp [lastPlayTime, List.foldl_append]

lemma lastPlayTime_eq_getLast (hist : List CardPlay) (c : String) :
    lastPlayTime hist c
      = ((hist.filter (fun p => decide (p.card_name = c))).getLast?).map
          (fun p => p.timestamp) := by
  induction hist using List.reverseRecOn with
  | nil => rfl
  | append_singleton hist p ih =>
      rw [lastPlayTime_append]
      by_cases hp : p.card_name = c
      · simp [hp, List.filter_append]
      · simp [hp, List.filter_append, ih]

lemma sortByLastPlayed_perm (hist : List CardPlay) (l : List String) :
    (sortByLastPlayed hist l).Perm l :=
  List.perm_insertionSort _ l

lemma sortByLastPlayed_sorted (hist : List CardPlay) (l : List String) :
    (sortByLastPlayed hist l).Sorted
      (fun a b => lastKey hist a ≤ lastKey hist b) := by
  haveI : IsTotal String (fun a b => lastKey hist a ≤ lastKey hist b) :=
    ⟨fun a b => le_total _ _⟩
  haveI : IsTrans String (fun a b => lastKey hist a ≤ lastKey hist b) :=
    ⟨fun _ _ _ hab hbc => le_trans hab hbc⟩
  exact List.sorted_insertionSort _ l

lemma sortedStrings_perm (l : List String) : (sortedStrings l).Perm l :=
  List.perm_insertionSort _ l

lemma sortedStrings_sorted (l : List String) :
    (sortedStrings l).Sorted (fun a b : String => a ≤ b) := by
  haveI : IsTotal String (fun a b : String => a ≤ b) := ⟨fun a b => le_total a b⟩
  haveI : IsTrans String (fun a b : String => a ≤ b) :=
    ⟨fun _ _ _ hab hbc => le_trans hab hbc⟩
  exact List.sorted_insertionSort _ l

/-- C4: for every reachable state and iteration order, the inferred hand is
empty when no plays are recorded; it is all discovered cards in lexicographic
order while fewer than 4 are discovered; once 4 or more are discovered it has
exactly 4 elements, all discovered, each with last-played key no larger than
that of any discovered card left out; it never exceeds 4 elements; and each
last-played timestamp is the last value written while scanning the history in
insertion order. -/
theorem inferred_hand_spec (s : CardCycleTracker) (enum : List String)
    (hs : Reachable s) (he : ValidEnum s enum) :
    (s.play_history = [] → get_inferred_hand s enum = []) ∧
    (s.discovered_cards.length < 4 →
      (get_inferred_hand s enum).Sorted (fun a b : String => a ≤ b) ∧
      ∀ c, c ∈ get_inferred_hand s enum ↔ c ∈ s.discovered_cards) ∧
    (4 ≤ s.discovered_cards.length →
      (get_inferred_hand s enum).length = 4 ∧
      get_inferred_hand s enum ⊆ s.discovered_cards ∧
      ∀ x ∈ get_inferred_hand s enum, ∀ y ∈ s.discovered_cards,
        y ∉ get_inferred_hand s enum →
          lastKey s.play_history x ≤ lastKey s.play_history y) ∧
    (get_inferred_hand s enum).length ≤ 4 ∧
    ∀ c, lastPlayTime s.play_history c
      = ((s.play_history.filter (fun p => decide (p.card_name = c))).getLast?).map
          (fun p => p.timestamp) := by
  obtain ⟨hnd, hsub, hlenle, hiff⟩ := reachable_invariants s hs
  have hlenenum : enum.length = s.discovered_cards.length := he.length_eq
  refine ⟨?_, ?_, ?_, ?_, fun c => lastPlayTime_eq_getLast _ c⟩
  · intro h
    simp [get_inferred_hand, h]
  · intro h4
    by_cases hne : s.play_history = []
    · have hd : s.discovered_cards = [] := hiff.mpr hne
      simp [get_inferred_hand, hne, hd]
    · have hhand : get_inferred_hand s enum = sortedStrings enum := by
        simp [get_inferred_hand, hne, h4]
      rw [hhand]
      refine ⟨sortedStrings_sorted enum, fun c => ?_⟩
      rw [(sortedStrings_perm enum).mem_iff, he.mem_iff]
  · intro h4
    have hdne : s.discovered_cards ≠ [] := by
      intro h0
      rw [h0] at h4
      simp at h4
    have hne : s.play_history ≠ [] := fun h0 => hdne (hiff.mpr h0)
    have hhand : get_inferred_hand s enum
        = (sortByLastPlayed s.play_history enum).take 4 := by
      simp [get_inferred_hand, hne, Nat.not_lt.mpr h4]
    have hperm := sortByLastPlayed_perm s.play_history enum
    have hsorted := sortByLastPlayed_sorted s.play_history enum
    have hslen : (sortByLastPlayed s.play_history enum).length
        = s.discovered_cards.length := by
      rw [hperm.length_eq, hlenenum]
    refine ⟨?_, ?_, ?_⟩
    · rw [hhand, List.length_take, hslen]
      omega
    · rw [hhand]
      exact ((List.take_subset _ _).trans hperm.subset).trans he.subset
    · intro x hx y hy hyn
      have hy2 : y ∈ sortByLastPlayed s.play_history enum := by
        rw [hperm.mem_iff, he.mem_iff]
        exact hy
      rw [← List.take_append_drop 4 (sortByLastPlayed s.play_history enum)]
        at hsorted hy2
      have hcross := (List.pairwise_append.mp hsorted).2.2
      rcases List.mem_append.mp hy2 with hy3 | hy3
      · exact absurd (hhand ▸ hy3) hyn
      · exact hcross x (hhand ▸ hx) y hy3
  · by_cases hne : s.play_history = []
    · simp [get_inferred_hand, hne]
    · by_cases h4 : s.discovered_cards.length < 4
      · have hhand : get_inferred_hand s enum = sortedStrings enum := by
          simp [get_inferred_hand, hne, h4]
        rw [hhand, (sortedStrings_perm enum).length_eq, hlenenum]
        omega
      · have hhand : get_inferred_hand s enum
            = (sortByLastPlayed s.play_history enum).take 4 := by
          simp [get_inferred_hand, hne, h4]
        rw [hhand, List.length_take]
        omega

/-- Witness for C4 at a reachable one-play state with its iteration order. -/
theorem inferred_hand_spec_witness :
    (exTracker1.play_history = [] → get_inferred_hand exTracker1 ["Knight"] = []) ∧
    (exTracker1.discovered_cards.length < 4 →
      (get_inferred_hand exTracker1 ["Knight"]).Sorted (fun a b : String => a ≤ b) ∧
      ∀ c, c ∈ get_inferred_hand exTracker1 ["Knight"]
        ↔ c ∈ exTracker1.discovered_cards) ∧
    (4 ≤ exTracker1.discovered_cards.length →
      (get_inferred_hand exTracker1 ["Knight"]).length = 4 ∧
      get_inferred_hand exTracker1 ["Knight"] ⊆ exTracker1.discovered_cards ∧
      ∀ x ∈ get_inferred_hand exTracker1 ["Knight"],
        ∀ y ∈ exTracker1.discovered_cards,
          y ∉ get_inferred_hand exTracker1 ["Knight"] →
            lastKey exTracker1.play_history x ≤ lastKey exTracker1.play_history y) ∧
    (get_inferred_hand exTracker1 ["Knight"]).length ≤ 4 ∧
    ∀ c, lastPlayTime exTracker1.play_history c
      = ((exTracker1.play_history.filter
            (fun p => decide (p.card_name = c))).getLast?).map
          (fun p => p.timestamp) :=
  inferred_hand_spec exTracker1 ["Knight"]
    (Reachable.step CardCycleTracker.init "Knight" false 1 Reachable.init)
    (by unfold ValidEnum; decide)

lemma minByLastPlayed_unfold (hist : List CardPlay) (h c : String) (t : List String) :
    minByLastPlayed hist h (c :: t)
      = minByLastPlayed hist
          (if lastKey hist c < lastKey hist h then c else h) t := rfl

lemma minByLastPlayed_mem (hist : List CardPlay) (t : List String) :
    ∀ h : String, minByLastPlayed hist h t ∈ h :: t := by
  induction t with
  | nil =>
      intro h
      simp [minByLastPlayed]
  | cons c t ih =>
      intro h
      rw [minByLastPlayed_unfold]
      have hmem := ih (if lastKey hist c < lastKey hist h then c else h)
      rcases List.mem_cons.mp hmem with h1 | h1
      · rw [h1]
        split_ifs
        · exact List.mem_cons_of_mem _ (List.mem_cons_self _ _)
        · exact List.mem_cons_self _ _
      · exact List.mem_cons_of_mem _ (List.mem_cons_of_mem _ h1)

lemma minByLastPlayed_le (hist : List CardPlay) (t : List String) :
    ∀ h : String, ∀ x ∈ h :: t,
      lastKey hist (minByLastPlayed hist h t) ≤ lastKey hist x := by
  induction t with
  | nil =>
      intro h x hx
      rw [List.mem_singleton] at hx
      subst hx
      exact le_refl _
  | cons c t ih =>
      intro h x hx
      rw [minByLastPlayed_unfold]
      by_cases hP : lastKey hist c < lastKey hist h
      · rw [if_pos hP]
        rcases List.mem_cons.mp hx with rfl | hx1
        · exact le_trans (ih c c (List.mem_cons_self _ _)) (le_of_lt hP)
        · rcases List.mem_cons.mp hx1 with rfl | hx2
          · exact ih x x (List.mem_cons_self _ _)
          · exact ih c x (List.mem_cons_of_mem _ hx2)
      · rw [if_neg hP]
        rcases List.mem_cons.mp hx with rfl | hx1
        · exact ih x x (List.mem_cons_self _ _)
        · rcases List.mem_cons.mp hx1 with rfl | hx2
          · exact le_trans (ih h h (List.mem_cons_self _ _)) (not_lt.mp hP)
          · exact ih h x (List.mem_cons_of_mem _ hx2)

/-- C3: for every reachable state and iteration order, the inferred next card
is `none` while fewer than 5 distinct cards are discovered, and otherwise it
is some discovered card that is not in the inferred hand. -/
theorem inferred_next_card_spec (s : CardCycleTracker) (enum : List String)
    (hs : Reachable s) (he : ValidEnum s enum) :
    (s.discovered_cards.length < 5 → get_inferred_next_card s enum = none) ∧
    (5 ≤ s.discovered_cards.length →
      ∃ c, get_inferred_next_card s enum = some c ∧ c ∈ s.discovered_cards ∧
        c ∉ get_inferred_hand s enum) := by
  obtain ⟨hnd, hsub, hlenle, hiff⟩ := reachable_invariants s hs
  have hlenenum : enum.length = s.discovered_cards.length := he.length_eq
  constructor
  · intro h5
    by_cases hne : s.play_history = []
    · simp [get_inferred_next_card, hne]
    · simp [get_inferred_next_card, hne, h5]
  · intro h5
    have hdne : s.discovered_cards ≠ [] := by
      intro h0
      rw [h0] at h5
      simp at h5
    have hne : s.play_history ≠ [] := fun h0 => hdne (hiff.mpr h0)
    have henum_nodup : enum.Nodup := he.nodup_iff.mpr hnd
    have h4 : ¬ s.discovered_cards.length < 4 := by omega
    have hhand : get_inferred_hand s enum
        = (sortByLastPlayed s.play_history enum).take 4 := by
      simp [get_inferred_hand, hne, h4]
    have hhandlen : (get_inferred_hand s enum).length = 4 := by
      rw [hhand, List.length_take,
        (sortByLastPlayed_perm s.play_history enum).length_eq, hlenenum]
      omega
    have hexists : ∃ x ∈ enum, x ∉ get_inferred_hand s enum := by
      by_contra hcon
      push_neg at hcon
      have hsp : List.Subperm enum (get_inferred_hand s enum) :=
        henum_nodup.subperm hcon
      have hle := hsp.length_le
      omega
    obtain ⟨x, hxe, hxh⟩ := hexists
    have hxf : x ∈ enum.filter (fun c => !decide (c ∈ get_inferred_hand s enum)) :=
      List.mem_filter.mpr ⟨hxe, by simpa using hxh⟩
    rcases hfe : enum.filter (fun c => !decide (c ∈ get_inferred_hand s enum))
      with _ | ⟨hd, tl⟩
    · rw [hfe] at hxf
      exact absurd hxf (List.not_mem_nil x)
    · have hval : get_inferred_next_card s enum
          = some (minByLastPlayed s.play_history hd tl) := by
        simp [get_inferred_next_card, hne, Nat.not_lt.mpr h5, hfe]
      have hmem := minByLastPlayed_mem s.play_history tl hd
      rw [← hfe] at hmem
      have hmem2 := List.mem_filter.mp hmem
      refine ⟨minByLastPlayed s.play_history hd tl, hval, he.subset hmem2.1, ?_⟩
      simpa using hmem2.2

/-- Witness for C3 at a reachable 5-card state with its iteration order. -/
theorem inferred_next_card_spec_witness :
    (exTracker5.discovered_cards.length < 5 →
      get_inferred_next_card exTracker5 ["a", "b", "c", "d", "e"] = none) ∧
    (5 ≤ exTracker5.discovered_cards.length →
      ∃ c, get_inferred_next_card exTracker5 ["a", "b", "c", "d", "e"] = some c ∧
        c ∈ exTracker5.discovered_cards ∧
        c ∉ get_inferred_hand exTracker5 ["a", "b", "c", "d", "e"]) :=
  inferred_next_card_spec exTracker5 ["a", "b", "c", "d", "e"]
    (reachable_runPlays CardCycleTracker.init
      [("a", false, 0), ("b", false, 1), ("c", false, 2), ("d", false, 3),
       ("e", false, 4)] Reachable.init)
    (by unfold ValidEnum; decide)

lemma lastPlayTime_eq_stripped (h : List CardPlay) (c : String) :
    lastPlayTime h c
      = (h.map stripEvPlay).foldl
          (fun acc q => if q.1 = c then some q.2 else acc) none := by
  rw [List.foldl_map]
  rfl

lemma lastPlayTime_congr (h₁ h₂ : List CardPlay)
    (hh : h₁.map stripEvPlay = h₂.map stripEvPlay) :
    lastPlayTime h₁ = lastPlayTime h₂ :=
  funext fun c => by rw [lastPlayTime_eq_stripped, lastPlayTime_eq_stripped, hh]

lemma lastKey_congr (h₁ h₂ : List CardPlay)
    (hh : h₁.map stripEvPlay = h₂.map stripEvPlay) :
    lastKey h₁ = lastKey h₂ :=
  funext fun c => by unfold lastKey; rw [lastPlayTime_congr h₁ h₂ hh]

lemma record_play_strip (s₁ s₂ : CardCycleTracker) (n : String) (e₁ e₂ : Bool)
    (t : ℚ) (hd : s₁.discovered_cards = s₂.discovered_cards)
    (hh : s₁.play_history.map stripEvPlay = s₂.play_history.map stripEvPlay) :
    (record_play s₁ n e₁ t).discovered_cards
      = (record_play s₂ n e₂ t).discovered_cards ∧
    (record_play s₁ n e₁ t).play_history.map stripEvPlay
      = (record_play s₂ n e₂ t).play_history.map stripEvPlay := by
  by_cases hmem : n ∈ s₁.discovered_cards
  · have hmem2 : n ∈ s₂.discovered_cards := hd ▸ hmem
    simp [record_play, hmem, hmem2, hd, hh, stripEvPlay]
  · have hmem2 : n ∉ s₂.discovered_cards := hd ▸ hmem
    simp [record_play, hmem, hmem2, hd, hh, stripEvPlay]

lemma runPlays_strip (l₁ : List (String × Bool × ℚ)) :
    ∀ l₂ : List (String × Bool × ℚ), l₁.map stripEvCall = l₂.map stripEvCall →
      ∀ s₁ s₂ : CardCycleTracker, s₁.discovered_cards = s₂.discovered_cards →
        s₁.play_history.map stripEvPlay = s₂.play_history.map stripEvPlay →
        (runPlays s₁ l₁).discovered_cards = (runPlays s₂ l₂).discovered_cards ∧
        (runPlays s₁ l₁).play_history.map stripEvPlay
          = (runPlays s₂ l₂).play_history.map stripEvPlay := by
  induction l₁ with
  | nil =>
      intro l₂ hmap s₁ s₂ hd hh
      have hl₂ : l₂ = [] := by simpa using hmap.symm
      subst hl₂
      exact ⟨hd, hh⟩
  | cons c₁ l₁ ih =>
      intro l₂ hmap s₁ s₂ hd hh
      cases l₂ with
      | nil => simp at hmap
      | cons c₂ l₂ =>
          simp only [List.map_cons, List.cons.injEq] at hmap
          obtain ⟨hc, hrest⟩ := hmap
          have hc2 : (c₁.1, c₁.2.2) = (c₂.1, c₂.2.2) := hc
          injection hc2 with hn ht
          have hstep := record_play_strip s₁ s₂ c₂.1 c₁.2.1 c₂.2.1 c₂.2.2 hd hh
          have hrun : ∀ (s : CardCycleTracker) (c : String × Bool × ℚ)
              (l : List (String × Bool × ℚ)),
              runPlays s (c :: l) = runPlays (record_play s c.1 c.2.1 c.2.2) l :=
            fun _ _ _ => rfl
          rw [hrun s₁ c₁ l₁, hrun s₂ c₂ l₂, hn, ht]
          exact ih l₂ hrest _ _ hstep.1 hstep.2

lemma queries_strip_congr (s₁ s₂ : CardCycleTracker)
    (hd : s₁.discovered_cards = s₂.discovered_cards)
    (hh : s₁.play_history.map stripEvPlay = s₂.play_history.map stripEvPlay)
    (enum : List String) :
    get_discovered_deck s₁ = get_discovered_deck s₂ ∧
    get_inferred_hand s₁ enum = get_inferred_hand s₂ enum ∧
    get_inferred_next_card s₁ enum = get_inferred_next_card s₂ enum := by
  have hkey : lastKey s₁.play_history = lastKey s₂.play_history :=
    lastKey_congr _ _ hh
  have hnil : s₁.play_history = [] ↔ s₂.play_history = [] := by
    constructor
    · intro h0
      rw [h0] at hh
      simpa using hh.symm
    · intro h0
      rw [h0] at hh
      simpa using hh
  have hsort : sortByLastPlayed s₁.play_history = sortByLastPlayed s₂.play_history := by
    unfold sortByLastPlayed
    rw [hkey]
  have hmin : minByLastPlayed s₁.play_history = minByLastPlayed s₂.play_history := by
    unfold minByLastPlayed
    rw [hkey]
  have hhand : get_inferred_hand s₁ enum = get_inferred_hand s₂ enum := by
    unfold get_inferred_hand
    rw [hd, hsort]
    by_cases h0 : s₂.play_history = []
    · rw [if_pos (hnil.mpr h0), if_pos h0]
    · rw [if_neg (fun hx => h0 (hnil.mp hx)), if_neg h0]
  refine ⟨by unfold get_discovered_deck; rw [hd], hhand, ?_⟩
  unfold get_inferred_next_card
  rw [hd, hhand, hmin]
  by_cases h0 : s₂.play_history = []
  · rw [if_pos (hnil.mpr h0), if_pos h0]
  · rw [if_neg (fun hx => h0 (hnil.mp hx)), if_neg h0]

/-- C10: the `is_evolved` flag never influences any query. Two `record_play`
call sequences that agree except in their `is_evolved` arguments produce, after
every prefix, the same discovered deck, the same inferred hand and the same
inferred next card, for every iteration order. -/
theorem is_evolved_noninterference (l₁ l₂ : List (String × Bool × ℚ))
    (hmap : l₁.map stripEvCall = l₂.map stripEvCall) (n : ℕ) (enum : List String) :
    get_discovered_deck (runPlays CardCycleTracker.init (l₁.take n))
      = get_discovered_deck (runPlays CardCycleTracker.init (l₂.take n)) ∧
    get_inferred_hand (runPlays CardCycleTracker.init (l₁.take n)) enum
      = get_inferred_hand (runPlays CardCycleTracker.init (l₂.take n)) enum ∧
    get_inferred_next_card (runPlays CardCycleTracker.init (l₁.take n)) enum
      = get_inferred_next_card (runPlays CardCycleTracker.init (l₂.take n)) enum := by
  have htake : (l₁.take n).map stripEvCall = (l₂.take n).map stripEvCall := by
    rw [List.map_take, List.map_take, hmap]
  have hrun := runPlays_strip (l₁.take n) (l₂.take n) htake
    CardCycleTracker.init CardCycleTracker.init rfl rfl
  exact queries_strip_congr _ _ hrun.1 hrun.2 enum

/-- Witness for C10: one-element call sequences differing only in the flag. -/
theorem is_evolved_noninterference_witness :
    get_discovered_deck (runPlays CardCycleTracker.init
        ([("Knight", false, 1)].take 1))
      = get_discovered_deck (runPlays CardCycleTracker.init
          ([("Knight", true, 1)].take 1)) ∧
    get_inferred_hand (runPlays CardCycleTracker.init
        ([("Knight", false, 1)].take 1)) ["Knight"]
      = get_inferred_hand (runPlays CardCycleTracker.init
          ([("Knight", true, 1)].take 1)) ["Knight"] ∧
    get_inferred_next_card (runPlays CardCycleTracker.init
        ([("Knight", false, 1)].take 1)) ["Knight"]
      = get_inferred_next_card (runPlays CardCycleTracker.init
          ([("Knight", true, 1)].take 1)) ["Knight"] :=
  is_evolved_noninterference [("Knight", false, 1)] [("Knight", true, 1)] rfl 1
    ["Knight"]

lemma pairRel_total (hist : List CardPlay) :
    ∀ a b, pairRel hist a b ∨ pairRel hist b a := by
  intro a b
  rcases lt_trichotomy (lastKey hist a) (lastKey hist b) with h | h | h
  · exact Or.inl (Or.inl h)
  · rcases le_total a.toList b.toList with hle | hle
    · exact Or.inl (Or.inr ⟨h, hle⟩)
    · exact Or.inr (Or.inr ⟨h.symm, hle⟩)
  · exact Or.inr (Or.inl h)

lemma pairRel_trans (hist : List CardPlay) :
    ∀ a b c, pairRel hist a b → pairRel hist b c → pairRel hist a c := by
  intro a b c hab hbc
  rcases hab with h1 | ⟨h1, h1s⟩ <;> rcases hbc with h2 | ⟨h2, h2s⟩
  · exact Or.inl (lt_trans h1 h2)
  · exact Or.inl (lt_of_lt_of_le h1 (le_of_eq h2))
  · exact Or.inl (lt_of_le_of_lt (le_of_eq h1) h2)
  · exact Or.inr ⟨h1.trans h2, le_trans h1s h2s⟩

lemma pairwise_lt_of_sorted_le (hist : List CardPlay) (D l : List String)
    (hsort : l.Pairwise (fun a b => lastKey hist a ≤ lastKey hist b))
    (hnd : l.Nodup) (hsub : l ⊆ D)
    (hinj : ∀ a ∈ D, ∀ b ∈ D, lastKey hist a = lastKey hist b → a = b) :
    l.Pairwise (fun a b => lastKey hist a < lastKey hist b) :=
  (hsort.and hnd).imp_of_mem
    (fun {a b} ha hb hab =>
      lt_of_le_of_ne hab.1
        (fun heq => hab.2 (hinj a (hsub ha) b (hsub hb) heq)))

lemma pairwise_lt_of_pairRel_sorted (hist : List CardPlay) (D l : List String)
    (hsort : l.Pairwise (pairRel hist)) (hnd : l.Nodup) (hsub : l ⊆ D)
    (hinj : ∀ a ∈ D, ∀ b ∈ D, lastKey hist a = lastKey hist b → a = b) :
    l.Pairwise (fun a b => lastKey hist a < lastKey hist b) :=
  (hsort.and hnd).imp_of_mem
    (fun {a b} ha hb hab => by
      rcases hab.1 with h | ⟨heq, _⟩
      · exact h
      · exact absurd (hinj a (hsub ha) b (hsub hb) heq) hab.2)

lemma sortByLastPlayed_eq_pairSort (s : CardCycleTracker) (enum : List String)
    (hnd : s.discovered_cards.Nodup) (he : ValidEnum s enum)
    (hinj : ∀ a ∈ s.discovered_cards, ∀ b ∈ s.discovered_cards,
      lastKey s.play_history a = lastKey s.play_history b → a = b) :
    sortByLastPlayed s.play_history enum
      = List.insertionSort (pairRel s.play_history) s.discovered_cards := by
  have h1perm : (sortByLastPlayed s.play_history enum).Perm s.discovered_cards :=
    (sortByLastPlayed_perm _ _).trans he
  have h2perm : (List.insertionSort (pairRel s.play_history)
      s.discovered_cards).Perm s.discovered_cards :=
    List.perm_insertionSort _ _
  have h2sorted : (List.insertionSort (pairRel s.play_history)
      s.discovered_cards).Sorted (pairRel s.play_history) := by
    haveI : IsTotal String (pairRel s.play_history) := ⟨pairRel_total _⟩
    haveI : IsTrans String (pairRel s.play_history) := ⟨pairRel_trans _⟩
    exact List.sorted_insertionSort _ _
  have h1lt := pairwise_lt_of_sorted_le s.play_history s.discovered_cards _
    (sortByLastPlayed_sorted s.play_history enum)
    (h1perm.nodup_iff.mpr hnd) h1perm.subset hinj
  have h2lt := pairwise_lt_of_pairRel_sorted s.play_history s.discovered_cards _
    h2sorted (h2perm.nodup_iff.mpr hnd) h2perm.subset hinj
  haveI : IsAntisymm String
      (fun a b => lastKey s.play_history a < lastKey s.play_history b) :=
    ⟨fun _ _ h1 h2 => (lt_asymm h1 h2).elim⟩
  exact List.eq_of_perm_of_sorted (h1perm.trans h2perm.symm) h1lt h2lt

lemma next_card_eq_none (s : CardCycleTracker) (enum : List String)
    (hfe : enum.filter (fun c => !decide (c ∈ get_inferred_hand s enum)) = []) :
    get_inferred_next_card s enum = none := by
  by_cases hne : s.play_history = []
  · simp [get_inferred_next_card, hne]
  · by_cases h5 : s.discovered_cards.length < 5
    · simp [get_inferred_next_card, hne, h5]
    · simp [get_inferred_next_card, hne, h5, hfe]

lemma next_card_eq_some (s : CardCycleTracker) (enum : List String)
    (hd : String) (tl : List String) (hne : s.play_history ≠ [])
    (h5 : ¬ s.discovered_cards.length < 5)
    (hfe : enum.filter (fun c => !decide (c ∈ get_inferred_hand s enum))
      = hd :: tl) :
    get_inferred_next_card s enum
      = some (minByLastPlayed s.play_history hd tl) := by
  simp [get_inferred_next_card, hne, h5, hfe]

/-- C2 counterexample: on the reachable state where cards "a" and "b" share
last-played timestamp 0, the iteration orders `["a","b","c","d"]` and
`["b","a","c","d"]` are both valid enumerations of the discovered set, yet
`get_inferred_hand` returns different results for them, and for the second it
differs from the first 4 cards under the `(last_played_timestamp,
card_identifier)` ordering — the timestamp tie is broken by set iteration
order, not by the identifier. -/
theorem inferred_hand_tiebreak_cex :
    ValidEnum exTrackerTie ["a", "b", "c", "d"] ∧
    ValidEnum exTrackerTie ["b", "a", "c", "d"] ∧
    get_inferred_hand exTrackerTie ["b", "a", "c", "d"]
      ≠ handByPairKey exTrackerTie ∧
    get_inferred_hand exTrackerTie ["b", "a", "c", "d"]
      ≠ get_inferred_hand exTrackerTie ["a", "b", "c", "d"] := by
  refine ⟨?_, ?_, ?_, ?_⟩
  · unfold ValidEnum
    decide
  · unfold ValidEnum
    decide
  · decide
  · decide

/-- C2 (amended): when the last-played keys of the discovered cards are
pairwise distinct (no timestamp ties), `get_inferred_hand` is independent of
the set iteration order and equals the first 4 discovered cards under the
`(last_played_timestamp, card_identifier)` ordering, and
`get_inferred_next_card` is likewise independent of the iteration order. -/
theorem inferred_hand_deterministic (s : CardCycleTracker)
    (enum₁ enum₂ : List String) (hs : Reachable s)
    (he₁ : ValidEnum s enum₁) (he₂ : ValidEnum s enum₂)
    (hinj : ∀ a ∈ s.discovered_cards, ∀ b ∈ s.discovered_cards,
      lastKey s.play_history a = lastKey s.play_history b → a = b)
    (h4 : 4 ≤ s.discovered_cards.length) :
    get_inferred_hand s enum₁ = handByPairKey s ∧
    get_inferred_hand s enum₂ = handByPairKey s ∧
    get_inferred_next_card s enum₁ = get_inferred_next_card s enum₂ := by
  obtain ⟨hnd, hsub, hlenle, hiff⟩ := reachable_invariants s hs
  have hdne : s.discovered_cards ≠ [] := by
    intro h0
    rw [h0] at h4
    simp at h4
  have hne : s.play_history ≠ [] := fun h0 => hdne (hiff.mpr h0)
  have hn4 : ¬ s.discovered_cards.length < 4 := by omega
  have hhand₁ : get_inferred_hand s enum₁ = handByPairKey s := by
    unfold handByPairKey
    rw [← sortByLastPlayed_eq_pairSort s enum₁ hnd he₁ hinj]
    simp [get_inferred_hand, hne, hn4]
  have hhand₂ : get_inferred_hand s enum₂ = handByPairKey s := by
    unfold handByPairKey
    rw [← sortByLastPlayed_eq_pairSort s enum₂ hnd he₂ hinj]
    simp [get_inferred_hand, hne, hn4]
  refine ⟨hhand₁, hhand₂, ?_⟩
  by_cases h5 : s.discovered_cards.length < 5
  · simp [get_inferred_next_card, h5]
  · have hm₁ : ∀ x, x ∈ enum₁.filter
        (fun c => !decide (c ∈ get_inferred_hand s enum₁))
        ↔ (x ∈ s.discovered_cards ∧ x ∉ handByPairKey s) := by
      intro x
      rw [List.mem_filter]
      constructor
      · rintro ⟨hx1, hx2⟩
        rw [hhand₁] at hx2
        exact ⟨he₁.subset hx1, by simpa using hx2⟩
      · rintro ⟨hx1, hx2⟩
        refine ⟨he₁.mem_iff.mpr hx1, ?_⟩
        rw [hhand₁]
        simpa using hx2
    have hm₂ : ∀ x, x ∈ enum₂.filter
        (fun c => !decide (c ∈ get_inferred_hand s enum₂))
        ↔ (x ∈ s.discovered_cards ∧ x ∉ handByPairKey s) := by
      intro x
      rw [List.mem_filter]
      constructor
      · rintro ⟨hx1, hx2⟩
        rw [hhand₂] at hx2
        exact ⟨he₂.subset hx1, by simpa using hx2⟩
      · rintro ⟨hx1, hx2⟩
        refine ⟨he₂.mem_iff.mpr hx1, ?_⟩
        rw [hhand₂]
        simpa using hx2
    rcases hfe₁ : enum₁.filter (fun c => !decide (c ∈ get_inferred_hand s enum₁))
      with _ | ⟨h₁, t₁⟩
      <;> rcases hfe₂ : enum₂.filter
        (fun c => !decide (c ∈ get_inferred_hand s enum₂)) with _ | ⟨h₂, t₂⟩
    · rw [next_card_eq_none s enum₁ hfe₁, next_card_eq_none s enum₂ hfe₂]
    · exfalso
      have hin : h₂ ∈ enum₂.filter
          (fun c => !decide (c ∈ get_inferred_hand s enum₂)) := by
        rw [hfe₂]
        exact List.mem_cons_self _ _
      have hin2 := (hm₁ h₂).mpr ((hm₂ h₂).mp hin)
      rw [hfe₁] at hin2
      exact absurd hin2 (List.not_mem_nil _)
    · exfalso
      have hin : h₁ ∈ enum₁.filter
          (fun c => !decide (c ∈ get_inferred_hand s enum₁)) := by
        rw [hfe₁]
        exact List.mem_cons_self _ _
      have hin2 := (hm₂ h₁).mpr ((hm₁ h₁).mp hin)
      rw [hfe₂] at hin2
      exact absurd hin2 (List.not_mem_nil _)
    · rw [next_card_eq_some s enum₁ h₁ t₁ hne h5 hfe₁,
        next_card_eq_some s enum₂ h₂ t₂ hne h5 hfe₂]
      have hm₁mem : minByLastPlayed s.play_history h₁ t₁ ∈ enum₁.filter
          (fun c => !decide (c ∈ get_inferred_hand s enum₁)) := by
        rw [hfe₁]
        exact minByLastPlayed_mem _ _ _
      have hm₂mem : minByLastPlayed s.play_history h₂ t₂ ∈ enum₂.filter
          (fun c => !decide (c ∈ get_inferred_hand s enum₂)) := by
        rw [hfe₂]
        exact minByLastPlayed_mem _ _ _
      have hc₁ := (hm₁ _).mp hm₁mem
      have hc₂ := (hm₂ _).mp hm₂mem
      have hm₂inF₁ := (hm₁ _).mpr hc₂
      have hm₁inF₂ := (hm₂ _).mpr hc₁
      rw [hfe₁] at hm₂inF₁
      rw [hfe₂] at hm₁inF₂
      have hle₁ := minByLastPlayed_le s.play_history t₁ h₁
        (minByLastPlayed s.play_history h₂ t₂) hm₂inF₁
      have hle₂ := minByLastPlayed_le s.play_history t₂ h₂
        (minByLastPlayed s.play_history h₁ t₁) hm₁inF₂
      rw [hinj _ hc₁.1 _ hc₂.1 (le_antisymm hle₁ hle₂)]

/-- Witness for C2 (amended) at a reachable 5-card state with distinct
timestamps, compared across two different iteration orders. -/
theorem inferred_hand_deterministic_witness :
    get_inferred_hand exTracker5 ["a", "b", "c", "d", "e"]
      = handByPairKey exTracker5 ∧
    get_inferred_hand exTracker5 ["e", "d", "c", "b", "a"]
      = handByPairKey exTracker5 ∧
    get_inferred_next_card exTracker5 ["a", "b", "c", "d", "e"]
      = get_inferred_next_card exTracker5 ["e", "d", "c", "b", "a"] :=
  inferred_hand_deterministic exTracker5 ["a", "b", "c", "d", "e"]
    ["e", "d", "c", "b", "a"]
    (reachable_runPlays CardCycleTracker.init
      [("a", false, 0), ("b", false, 1), ("c", false, 2), ("d", false, 3),
       ("e", false, 4)] Reachable.init)
    (by unfold ValidEnum; decide) (by unfold ValidEnum; decide)
    (by decide) (by decide)

lemma ratesPos_applyElixirOp (s : ElixirTracker) (op : ElixirOp) (h : RatesPos s) :
    RatesPos (applyElixirOp s op) := by
  obtain ⟨a1, a2, a3, M, x, lu, ph⟩ := s
  cases op with
  | update_time now_seconds =>
      cases lu <;>
        simpa [applyElixirOp, ElixirTracker.update_time, RatesPos] using h
  | spend cost => simpa [applyElixirOp, ElixirTracker.spend, RatesPos] using h
  | adjust delta => simpa [applyElixirOp, ElixirTracker.adjust, RatesPos] using h
  | set_single_elixir =>
      simpa [applyElixirOp, ElixirTracker.set_single_elixir, RatesPos] using h
  | set_double_elixir =>
      simpa [applyElixirOp, ElixirTracker.set_double_elixir, RatesPos] using h
  | set_triple_elixir =>
      simpa [applyElixirOp, ElixirTracker.set_triple_elixir, RatesPos] using h

lemma elixirInvariant_applyElixirOp (s : ElixirTracker) (op : ElixirOp)
    (hinv : ElixirInvariant s) (hr : RatesPos s) (hadm : AdmissibleOp s op) :
    ElixirInvariant (applyElixirOp s op) := by
  obtain ⟨a1, a2, a3, M, x, lu, ph⟩ := s
  obtain ⟨hx0, hxM⟩ := hinv
  obtain ⟨hr1, hr2, hr3⟩ := hr
  simp only [ElixirInvariant] at hx0 hxM ⊢
  cases op with
  | update_time now_seconds =>
      cases lu with
      | none => exact ⟨hx0, hxM⟩
      | some last =>
          simp only [AdmissibleOp] at hadm
          simp only [applyElixirOp, ElixirTracker.update_time]
          have hspe : 0 < (if ph = "single" then a1 else if ph = "double" then a2
              else if ph = "triple" then a3 else a1) := by
            split_ifs <;> assumption
          have hgain : 0 ≤ (now_seconds - last) /
              (if ph = "single" then a1 else if ph = "double" then a2
                else if ph = "triple" then a3 else a1) :=
            div_nonneg (by linarith) (le_of_lt hspe)
          constructor
          · exact le_min (by linarith) (by linarith)
          · exact min_le_right _ _
  | spend cost =>
      simp only [AdmissibleOp] at hadm
      simp only [applyElixirOp, ElixirTracker.spend]
      exact ⟨le_max_left _ _, max_le (by linarith) (by linarith)⟩
  | adjust delta =>
      simp only [applyElixirOp, ElixirTracker.adjust]
      exact ⟨le_max_left _ _, max_le (by linarith) (min_le_right _ _)⟩
  | set_single_elixir => exact ⟨hx0, hxM⟩
  | set_double_elixir => exact ⟨hx0, hxM⟩
  | set_triple_elixir => exact ⟨hx0, hxM⟩

lemma elixirInvariant_runElixirOps (ops : List ElixirOp) :
    ∀ s : ElixirTracker, ElixirInvariant s → RatesPos s → AdmissibleSeq s ops →
      ElixirInvariant (runElixirOps s ops) := by
  induction ops with
  | nil => exact fun s hinv _ _ => hinv
  | cons op ops ih =>
      intro s hinv hr hadm
      obtain ⟨h1, h2⟩ := hadm
      exact ih (applyElixirOp s op)
        (elixirInvariant_applyElixirOp s op hinv hr h1)
        (ratesPos_applyElixirOp s op hr) h2

/-- C1 counterexample: on the default tracker, calling `update_time 10` and
then `update_time 0` (a non-monotonic timestamp, which the claim explicitly
permits) drives `current_elixir` strictly below zero, so the invariant
`0 ≤ current_elixir ≤ max_elixir` does not hold after every operation. -/
theorem elixir_invariant_cex :
    ¬ (0 ≤ ((defaultElixirTracker.update_time 10).update_time 0).current_elixir) := by
  norm_num [defaultElixirTracker, mkElixirTracker, ElixirTracker.update_time, min_def]

/-- C1 (amended): starting from a freshly constructed tracker with positive
rate parameters and nonnegative cap, the invariant
`0 ≤ current_elixir ≤ max_elixir` holds after every sequence of operations in
which `update_time` receives nondecreasing timestamps and `spend` nonnegative
costs. -/
theorem elixir_invariant_holds (single_spe double_spe triple_spe max_e : ℚ)
    (h1 : 0 < single_spe) (h2 : 0 < double_spe) (h3 : 0 < triple_spe)
    (hM : 0 ≤ max_e) (ops : List ElixirOp)
    (hadm : AdmissibleSeq (mkElixirTracker single_spe double_spe triple_spe max_e) ops) :
    ElixirInvariant (runElixirOps (mkElixirTracker single_spe double_spe triple_spe max_e) ops) :=
  elixirInvariant_runElixirOps ops _ ⟨le_refl 0, hM⟩ ⟨h1, h2, h3⟩ hadm

/-- Witness for C1 (amended) at a concrete admissible call sequence. -/
theorem elixir_invariant_holds_witness :
    ElixirInvariant (runElixirOps (mkElixirTracker 2.8 1.4 0.9 10)
      [ElixirOp.update_time 0, ElixirOp.update_time 1, ElixirOp.spend 1,
       ElixirOp.adjust 5, ElixirOp.set_double_elixir, ElixirOp.update_time 2]) :=
  elixir_invariant_holds 2.8 1.4 0.9 10 (by norm_num) (by norm_num) (by norm_num)
    (by norm_num) _
    (by norm_num [AdmissibleSeq, AdmissibleOp, applyElixirOp, mkElixirTracker,
      ElixirTracker.update_time, ElixirTracker.spend, ElixirTracker.adjust,
      ElixirTracker.set_double_elixir])

/-- C5: on a fresh tracker in single phase with rate `r`, the first
`update_time now1` only records the baseline (no accrual), and the second call
`update_time now2` sets `current_elixir = min max_elixir ((now2 - now1) / r)`. -/
theorem first_two_update_time_calls (r d3 t3 max_e now1 now2 : ℚ)
    (h0 : 0 ≤ now1) (h12 : now1 < now2) (hr : 0 < r) :
    ((mkElixirTracker r d3 t3 max_e).update_time now1).current_elixir = 0 ∧
    ((mkElixirTracker r d3 t3 max_e).update_time now1).last_update_timestamp = some now1 ∧
    (((mkElixirTracker r d3 t3 max_e).update_time now1).update_time now2).current_elixir
      = min max_e ((now2 - now1) / r) := by
  refine ⟨rfl, rfl, ?_⟩
  show min (0 + (now2 - now1) / r) max_e = min max_e ((now2 - now1) / r)
  rw [zero_add, min_comm]

/-- Witness for C5 at `r = 2.8`, `now1 = 0`, `now2 = 2.8`. -/
theorem first_two_update_time_calls_witness :
    ((mkElixirTracker 2.8 1.4 0.9 10).update_time 0).current_elixir = 0 ∧
    ((mkElixirTracker 2.8 1.4 0.9 10).update_time 0).last_update_timestamp = some 0 ∧
    (((mkElixirTracker 2.8 1.4 0.9 10).update_time 0).update_time 2.8).current_elixir
      = min 10 ((2.8 - 0) / 2.8) :=
  first_two_update_time_calls 2.8 1.4 0.9 10 0 2.8 (by norm_num) (by norm_num)
    (by norm_num)

/-- C6 counterexample: from the reachable state with
`current_elixir = -25/7 < 0` (obtained by `update_time 10` then `update_time 0`
on the default tracker), `spend (-2)` twice leaves elixir `2`, while a single
`spend (2 * (-2))` leaves `3/7`; the two are not equal, so the claim fails for
states with negative `current_elixir`. -/
theorem spend_twice_cex :
    ((((defaultElixirTracker.update_time 10).update_time 0).spend (-2)).spend
        (-2)).current_elixir
      ≠ (((defaultElixirTracker.update_time 10).update_time 0).spend
          (2 * (-2))).current_elixir := by
  norm_num [defaultElixirTracker, mkElixirTracker, ElixirTracker.update_time,
    ElixirTracker.spend, min_def, max_def]

/-- C6 (amended): `spend c` twice equals a single `spend (2 * c)` from every
state whose `current_elixir` is nonnegative (and also for every state when
`c` is nonnegative). -/
theorem spend_twice_eq_spend_double (s : ElixirTracker) (c : ℚ)
    (h : 0 ≤ s.current_elixir ∨ 0 ≤ c) :
    (s.spend c).spend c = s.spend (2 * c) := by
  have key : max 0 (max 0 (s.current_elixir - c) - c)
      = max 0 (s.current_elixir - 2 * c) := by
    rcases le_total (s.current_elixir - c) 0 with h1 | h1
    · have hc : 0 ≤ c := by
        rcases h with hx0 | hc
        · linarith
        · exact hc
      rw [max_eq_left h1, zero_sub,
        max_eq_left (by linarith : -c ≤ (0:ℚ)),
        max_eq_left (by linarith : s.current_elixir - 2 * c ≤ 0)]
    · rw [max_eq_right h1]
      congr 1
      ring
  calc (s.spend c).spend c
      = { s with current_elixir := max 0 (max 0 (s.current_elixir - c) - c) } := rfl
    _ = { s with current_elixir := max 0 (s.current_elixir - 2 * c) } := by rw [key]
    _ = s.spend (2 * c) := rfl

/-- Witness for C6 (amended) on the default tracker with cost 3. -/
theorem spend_twice_eq_spend_double_witness :
    (defaultElixirTracker.spend 3).spend 3 = defaultElixirTracker.spend (2 * 3) :=
  spend_twice_eq_spend_double defaultElixirTracker 3 (Or.inr (by norm_num))

/-- C7: `adjust delta` sets `current_elixir` to
`clamp (current_elixir + delta) [0, max_elixir]`, and whenever
`0 ≤ max_elixir` the result of any `adjust` call (from any state, hence also
after arbitrarily many repeated calls) lies in `[0, max_elixir]`. -/
theorem adjust_clamps (s : ElixirTracker) (delta : ℚ) :
    (s.adjust delta).current_elixir
      = max 0 (min (s.current_elixir + delta) s.max_elixir) ∧
    (0 ≤ s.max_elixir →
      0 ≤ (s.adjust delta).current_elixir ∧
        (s.adjust delta).current_elixir ≤ s.max_elixir) := by
  refine ⟨rfl, fun hM => ⟨le_max_left _ _, ?_⟩⟩
  show max 0 (min (s.current_elixir + delta) s.max_elixir) ≤ s.max_elixir
  exact max_le hM (min_le_right _ _)

/-- Witness for C7 on the default tracker with delta 5. -/
theorem adjust_clamps_witness :
    (defaultElixirTracker.adjust 5).current_elixir
      = max 0 (min (defaultElixirTracker.current_elixir + 5)
          defaultElixirTracker.max_elixir) ∧
    (0 ≤ (defaultElixirTracker.adjust 5).current_elixir ∧
      (defaultElixirTracker.adjust 5).current_elixir
        ≤ defaultElixirTracker.max_elixir) :=
  ⟨(adjust_clamps defaultElixirTracker 5).1,
    (adjust_clamps defaultElixirTracker 5).2
      (by norm_num [defaultElixirTracker, mkElixirTracker])⟩

/-- C9: each phase setter writes only the `phase` field; all rate parameters,
the cap, `current_elixir` and `last_update_timestamp` are unchanged. -/
theorem phase_setters_only_mutate_phase (s : ElixirTracker) :
    ElixirFrameEq s.set_single_elixir s ∧ s.set_single_elixir.phase = "single" ∧
    ElixirFrameEq s.set_double_elixir s ∧ s.set_double_elixir.phase = "double" ∧
    ElixirFrameEq s.set_triple_elixir s ∧ s.set_triple_elixir.phase = "triple" :=
  ⟨⟨rfl, rfl, rfl, rfl, rfl, rfl⟩, rfl, ⟨rfl, rfl, rfl, rfl, rfl, rfl⟩, rfl,
    ⟨rfl, rfl, rfl, rfl, rfl, rfl⟩, rfl⟩

end CROverlay
